import Mathlib

/-!
Verification development for the taxid2prot repository.

The repository is a small Python data-acquisition utility:
`multiproc_utils.get_batches` splits a list into contiguous chunks, the
HTTP variant (`taxid2prot/taxid2prot.py`, class `Parser`) fetches FASTA
text per taxonomy id, extracts an organism name with a regular
expression, and persists files, and the UI-driven variant
(`taxid2prot.py`, class `ParseProtein`) drives a browser with periodic
waits and a final renaming pass.

Each Python function is embedded shallowly as an executable Lean
definition; filesystem and network effects become explicit state
passing (an association list of file names to contents, a set of
existing directories, a transport function).
-/

/-! ## multiproc_utils.get_batches

Python source:
```
def get_batches(data, processes_count):
    result = []
    bath_size = round(len(data) / processes_count)
    for i in range(0, len(data), bath_size):
        result.append(data[i : i + bath_size])
    return result
```
`round` is CPython round-half-to-even applied to the float quotient
`len(data) / processes_count`.  `pyRound n k` below computes
round-half-to-even of the exact rational n/k; this coincides with the
float computation for all n, k small enough that the quotient is
resolved exactly by double precision (in particular for every n below
2^52, far beyond any realistic input).  When the rounded size is 0,
`range(0, n, 0)` raises `ValueError`; the embedding returns `none`
there, and `some` of the chunk list otherwise. -/

/-- Round-half-to-even of the rational n / k (CPython `round(n / k)` under
exact arithmetic). -/
def pyRound (n k : Nat) : Nat :=
  let q := n / k
  let r := n % k
  if 2 * r < k then q
  else if k < 2 * r then q + 1
  else if q % 2 = 0 then q else q + 1

/-- The slicing loop `for i in range(0, len(data), b): result.append(data[i:i+b])`:
successive slices of width `b`.  `fuel` bounds the number of loop
iterations; since every iteration with `b ≥ 1` consumes at least one
element, `fuel = l.length` (as passed by `get_batches`) always
suffices, and all lemmas below carry the hypothesis `l.length ≤ fuel`. -/
def chunks (b : Nat) : Nat → List α → List (List α)
  | _, [] => []
  | 0, _ :: _ => []
  | fuel + 1, x :: xs =>
      (x :: xs).take b :: chunks b fuel ((x :: xs).drop b)

/-- `multiproc_utils.get_batches`.  `none` models the `ValueError` raised by
`range(0, len(data), 0)` when the rounded batch size is zero. -/
def get_batches (data : List α) (processes_count : Nat) :
    Option (List (List α)) :=
  let bath_size := pyRound data.length processes_count
  if bath_size = 0 then none
  else some (chunks bath_size data.length data)

/-! ## Parser.find_organism_name (HTTP variant)

Python source:
```
organism_name = "no_name"
os_pattern = r"OS=([A-Za-z]+\s[A-Za-z]+)"
result = re.search(os_pattern, text)
if result:
    organism_name = result.group(1).lower().replace(" ", "_")
return organism_name
```
The regular expression `OS=([A-Za-z]+\s[A-Za-z]+)` is embedded directly:
since the alphabetic class and the whitespace class are disjoint, the
greedy match at a given position is the unique possible match there, so
the matcher below (maximal alphabetic run, one whitespace, maximal
alphabetic run) is exact.  `re.search` takes the leftmost position at
which a match exists.  `isSpaceRe` lists the ASCII part of Python's
`\s` class; the inputs of interest contain only ASCII whitespace. -/

/-- The character class `[A-Za-z]`. -/
def isAlphaAZ (c : Char) : Bool :=
  ('A' ≤ c && c ≤ 'Z') || ('a' ≤ c && c ≤ 'z')

/-- The ASCII part of the character class `\s`. -/
def isSpaceRe (c : Char) : Bool :=
  c == ' ' || c == '\t' || c == '\n' || c == '\x0b' || c == '\x0c' || c == '\r'

/-- Match `OS=([A-Za-z]+\s[A-Za-z]+)` at the head of `l`, returning the
text captured by group 1. -/
def matchOSAt (l : List Char) : Option (List Char) :=
  match l with
  | o :: s :: e :: rest =>
      if o = 'O' ∧ s = 'S' ∧ e = '=' then
        let a1 := rest.takeWhile isAlphaAZ
        if a1.isEmpty then none
        else
          match rest.dropWhile isAlphaAZ with
          | [] => none
          | c :: r2 =>
              if isSpaceRe c then
                let a2 := r2.takeWhile isAlphaAZ
                if a2.isEmpty then none else some (a1 ++ c :: a2)
              else none
      else none
  | _ => none

/-- `re.search`: group 1 of the match at the leftmost matching position. -/
def searchOS : List Char → Option (List Char)
  | [] => none
  | x :: xs =>
      match matchOSAt (x :: xs) with
      | some g => some g
      | none => searchOS xs

/-- `.lower().replace(" ", "_")` applied to the captured group. -/
def normalizeName (g : List Char) : List Char :=
  (g.map Char.toLower).map (fun c => if c = ' ' then '_' else c)

/-- `Parser.find_organism_name`. -/
def find_organism_name (text : String) : String :=
  match searchOS text.data with
  | none => "no_name"
  | some g => String.mk (normalizeName g)

/-- Declarative statement that `text` contains a (sub)string matched by
`OS=([A-Za-z]+\s[A-Za-z]+)`. -/
def containsOS (l : List Char) : Prop :=
  ∃ pre a1 c a2 post,
    l = pre ++ 'O' :: 'S' :: '=' :: (a1 ++ c :: (a2 ++ post)) ∧
    a1 ≠ [] ∧ (∀ x ∈ a1, isAlphaAZ x = true) ∧
    isSpaceRe c = true ∧
    a2 ≠ [] ∧ (∀ x ∈ a2, isAlphaAZ x = true)

/-! ## ParseProtein.rename_files bracket pattern (UI variant)

Python: `pattern_to_find_name = r"\[([A-Za-z0-9_\s]+)\]"` with
`re.findall(...)[0]` on the file's first line; the raw group (no
lowercasing, no underscore substitution) becomes the new file name.
The class `[A-Za-z0-9_\s]` excludes `]`, so the greedy match is again
the unique match at a position. -/

/-- The character class `[A-Za-z0-9_\s]`. -/
def isBracketClass (c : Char) : Bool :=
  isAlphaAZ c || ('0' ≤ c && c ≤ '9') || c == '_' || isSpaceRe c

/-- Match `\[([A-Za-z0-9_\s]+)\]` at the head of `l`, returning group 1. -/
def matchBrAt (l : List Char) : Option (List Char) :=
  match l with
  | '[' :: rest =>
      let a := rest.takeWhile isBracketClass
      if a.isEmpty then none
      else
        match rest.dropWhile isBracketClass with
        | ']' :: _ => some a
        | _ => none
  | _ => none

/-- Leftmost bracket match: the first element of `re.findall`. -/
def searchBr : List Char → Option (List Char)
  | [] => none
  | x :: xs =>
      match matchBrAt (x :: xs) with
      | some g => some g
      | none => searchBr xs

/-- The organism name the UI variant's renamer extracts from a first line
(`re.findall(pattern)[0]`, used verbatim as the new file name), or `none`
when the renamer skips the file. -/
def rename_bracket_name (first_line : String) : Option String :=
  (searchBr first_line.data).map String.mk

/-! ## Parser.save_file_as_fasta / Parser.download_proteins (HTTP variant)

The download directory's contents are modeled as an association list of
file names to file contents; `List.lookup` models `os.path.exists` (a
`some` result) and reading.  A `Response` carries `status_code` and
`text` of `requests.Session.get`.  The `Outcome` type records the
branch the code took (its `print` side effects). -/

/-- The files of the download directory: name-to-contents pairs. -/
abbrev FS := List (String × String)

/-- An HTTP response: `status_code` and body `text`. -/
structure Response where
  status : Nat
  text : String
deriving DecidableEq

/-- The branch taken by one fetch-and-persist step, as reported by the
code's `print` calls. -/
inductive Outcome where
  | badStatus : Nat → Outcome
  | emptyBody : Outcome
  | saved : String → Outcome
  | conflict : String → Outcome
deriving DecidableEq

/-- The target path `f"{organism_name}_{tax_id}.fasta"` (within the
download folder). -/
def fasta_file_name (organism_name : String) (tax_id : Nat) : String :=
  organism_name ++ "_" ++ toString tax_id ++ ".fasta"

/-- `Parser.save_file_as_fasta`: write unless the file exists, else print
an error and leave the directory unchanged. -/
def save_file_as_fasta (fs : FS) (organism_name : String) (tax_id : Nat)
    (text_to_write : String) : FS × Outcome :=
  let file_name := fasta_file_name organism_name tax_id
  match fs.lookup file_name with
  | some _ => (fs, Outcome.conflict file_name)
  | none => ((file_name, text_to_write) :: fs, Outcome.saved file_name)

/-- `Parser.download_proteins`: skip on `status_code != 200`, skip on an
empty body, otherwise extract the organism name and persist. -/
def download_proteins (fs : FS) (response : Response) (tax_id : Nat) :
    FS × Outcome :=
  if response.status ≠ 200 then (fs, Outcome.badStatus response.status)
  else if response.text = "" then (fs, Outcome.emptyBody)
  else
    save_file_as_fasta fs (find_organism_name response.text) tax_id
      response.text

/-- `Parser.parse` (list branch): fold `download_proteins` over the ids,
pairing each id with the outcome of its step.  `transport` models
`self.session.get(self.url.format(tax_id))`. -/
def parse_http (transport : Nat → Response) (fs : FS) :
    List Nat → FS × List (Nat × Outcome)
  | [] => (fs, [])
  | t :: rest =>
      let r1 := download_proteins fs (transport t) t
      let r2 := parse_http transport r1.1 rest
      (r2.1, (t, r1.2) :: r2.2)

/-! ## Parser.__init__ / Parser.__create_download_folder

The set of paths existing on disk is modeled as a list of strings
`dirs`; `os.path.exists` is membership, and — since the only objects
this code creates are directories — `os.path.isdir` is membership as
well.  `os.path.join(path, name)` is rendered with a `/` separator.
The Russian-language `ValueError` message of `__init__` is rendered as
"invalid save path". -/

/-- `os.path.join(path, f"proteins({i})")`. -/
def folder_name (path : String) (i : Nat) : String :=
  path ++ "/proteins(" ++ toString i ++ ")"

/-- The probing loop `for i in range(attempts)`: starting at index `i`,
with `r` attempts remaining, the first index whose folder name does not
already exist. -/
def probe_from (dirs : List String) (path : String) : Nat → Nat → Option Nat
  | _, 0 => none
  | i, r + 1 =>
      if dirs.contains (folder_name path i) then probe_from dirs path (i + 1) r
      else some i

/-- `Parser.__create_download_folder` (attempts = 40): returns the created
folder and the updated set of existing paths, or the exhaustion error. -/
def create_download_folder (dirs : List String) (path : String) :
    Except String (String × List String) :=
  match probe_from dirs path 0 40 with
  | some i => Except.ok (folder_name path i, folder_name path i :: dirs)
  | none => Except.error "ERROR: Unable to create folder."

/-- `Parser.__init__`: checks `os.path.isdir(path_to_save)` before any
creation, raising `ValueError` otherwise. -/
def parser_init (dirs : List String) (path : String) :
    Except String (String × List String) :=
  if dirs.contains path then create_download_folder dirs path
  else Except.error "invalid save path"

/-! ## ParseProtein.parse (UI variant) orchestrator loop

Python source (the loop body and epilogue):
```
for i, tax_id in enumerate(tqdm(tax_ids)):
    self.download_proteins(tax_id)
    if i % batch_size == 0 and i != 0:
        self.wait_until_files_download()
self.wait_until_files_download(close_driver=True)
self.rename_files()
```
The run is abstracted as the sequence of its observable operations:
fetches, transitions into the waiting state, and the final renaming
pass. -/

/-- One observable operation of the UI-variant orchestrator. -/
inductive UIEvent where
  | fetch : Nat → UIEvent
  | wait : UIEvent
  | renameAll : UIEvent
deriving DecidableEq

/-- The `for i, tax_id in enumerate(tax_ids)` loop over (index, id)
pairs: fetch, then wait when `i % batch_size == 0 and i != 0`. -/
def ui_loop (batch_size : Nat) : List (Nat × Nat) → List UIEvent
  | [] => []
  | (i, t) :: rest =>
      UIEvent.fetch t ::
        ((if i % batch_size = 0 ∧ i ≠ 0 then [UIEvent.wait] else []) ++
          ui_loop batch_size rest)

/-- `ParseProtein.parse` (list branch): the loop's trace followed by the
final wait and the renaming pass. -/
def parse_ui (tax_ids : List Nat) (batch_size : Nat) : List UIEvent :=
  ui_loop batch_size tax_ids.enum ++ [UIEvent.wait, UIEvent.renameAll]

/-! Concrete data used by the end-to-end claim. -/

/-- The FASTA text the mocked transport serves for taxonomy id 435. -/
def ecoliFasta : String :=
  ">sp|P0A7G6|RECA_ECOLI Protein RecA OS=Escherichia coli OX=83333 GN=recA"

/-! ## Lemmas and claim theorems -/

theorem chunks_nil (b f : Nat) : chunks b f ([] : List α) = [] := by
  cases f <;> rfl

theorem chunks_cons (b f : Nat) (l : List α) (hl : l ≠ []) :
    chunks b (f + 1) l = l.take b :: chunks b f (l.drop b) := by
  obtain ⟨x, xs, rfl⟩ := List.exists_cons_of_ne_nil hl
  rfl

theorem chunks_ne_nil (b f : Nat) (l : List α) (hl : l ≠ []) :
    chunks b (f + 1) l ≠ [] := by
  rw [chunks_cons b f l hl]
  exact List.cons_ne_nil _ _

/-- Concatenating the chunks, in order, restores the input list. -/
theorem chunks_join (b : Nat) (hb : b ≠ 0) :
    ∀ (f : Nat) (l : List α), l.length ≤ f → (chunks b f l).flatten = l := by
  intro f
  induction f with
  | zero =>
      intro l hl
      have : l = [] := List.eq_nil_of_length_eq_zero (Nat.le_zero.mp hl)
      subst this
      simp [chunks_nil]
  | succ m ih =>
      intro l hl
      by_cases hnil : l = []
      · subst hnil; simp [chunks_nil]
      · rw [chunks_cons b m l hnil]
        have hlen : (l.drop b).length ≤ m := by
          have h1 : l.length ≠ 0 := by
            intro h0; exact hnil (List.eq_nil_of_length_eq_zero h0)
          simp only [List.length_drop]
          omega
        simp only [List.flatten_cons, ih (l.drop b) hlen]
        exact List.take_append_drop b l

/-- Chunk count equals the ceiling of length over chunk width. -/
theorem chunks_length (b : Nat) (hb : b ≠ 0) :
    ∀ (f : Nat) (l : List α), l.length ≤ f →
      (chunks b f l).length = (l.length + b - 1) / b := by
  intro f
  induction f with
  | zero =>
      intro l hl
      have : l = [] := List.eq_nil_of_length_eq_zero (Nat.le_zero.mp hl)
      subst this
      simp [chunks_nil, Nat.div_eq_of_lt (by omega : b - 1 < b)]
  | succ m ih =>
      intro l hl
      by_cases hnil : l = []
      · subst hnil
        simp [chunks_nil, Nat.div_eq_of_lt (by omega : b - 1 < b)]
      · rw [chunks_cons b m l hnil]
        have hpos : 0 < l.length := List.length_pos.mpr hnil
        have hlen : (l.drop b).length ≤ m := by
          simp only [List.length_drop]; omega
        simp only [List.length_cons, ih (l.drop b) hlen, List.length_drop]
        rcases Nat.lt_or_ge l.length b with hlt | hge
        · have e1 : l.length - b + b - 1 = b - 1 := by omega
          have e2 : (b - 1) / b = 0 := Nat.div_eq_of_lt (by omega)
          have e3 : l.length + b - 1 = (l.length - 1) + b := by omega
          have e4 : ((l.length - 1) + b) / b = (l.length - 1) / b + 1 :=
            Nat.add_div_right _ (by omega)
          have e5 : (l.length - 1) / b = 0 := Nat.div_eq_of_lt (by omega)
          rw [e1, e2, e3, e4, e5]
        · have h1 : l.length - b + b - 1 = l.length - 1 := by omega
          have h2 : l.length + b - 1 = (l.length - 1) + b := by omega
          rw [h1, h2, Nat.add_div_right _ (by omega : 0 < b)]

/-- Every chunk except possibly the last has length exactly `b`. -/
theorem chunks_dropLast_length (b : Nat) (hb : b ≠ 0) :
    ∀ (f : Nat) (l : List α), l.length ≤ f →
      ∀ c ∈ (chunks b f l).dropLast, c.length = b := by
  intro f
  induction f with
  | zero =>
      intro l hl c hc
      have : l = [] := List.eq_nil_of_length_eq_zero (Nat.le_zero.mp hl)
      subst this
      simp [chunks_nil] at hc
  | succ m ih =>
      intro l hl c hc
      by_cases hnil : l = []
      · subst hnil; simp [chunks_nil] at hc
      · rw [chunks_cons b m l hnil] at hc
        by_cases hdnil : l.drop b = []
        · rw [hdnil, chunks_nil] at hc
          simp at hc
        · have hpos : 0 < l.length := List.length_pos.mpr hnil
          have hble : b ≤ l.length := by
            by_contra hgt
            have : l.drop b = [] := List.drop_eq_nil_of_le (by omega)
            exact hdnil this
          have hlen : (l.drop b).length ≤ m := by
            simp only [List.length_drop]; omega
          have hm : 0 < m := by
            have : 0 < (l.drop b).length := List.length_pos.mpr hdnil
            omega
          obtain ⟨m1, rfl⟩ : ∃ m1, m = m1 + 1 := ⟨m - 1, by omega⟩
          have hrest : chunks b (m1 + 1) (l.drop b) ≠ [] :=
            chunks_ne_nil b m1 _ hdnil
          obtain ⟨r, rs, hr⟩ := List.exists_cons_of_ne_nil hrest
          rw [hr] at hc
          rw [List.dropLast_cons₂] at hc
          rcases List.mem_cons.mp hc with hc1 | hc2
          · rw [hc1, List.length_take]
            omega
          · have := ih (l.drop b) hlen c
            rw [hr] at this
            exact this hc2

/-- Every chunk is nonempty and no longer than `b`. -/
theorem chunks_mem_length (b : Nat) (hb : b ≠ 0) :
    ∀ (f : Nat) (l : List α), l.length ≤ f →
      ∀ c ∈ chunks b f l, 1 ≤ c.length ∧ c.length ≤ b := by
  intro f
  induction f with
  | zero =>
      intro l hl c hc
      have : l = [] := List.eq_nil_of_length_eq_zero (Nat.le_zero.mp hl)
      subst this
      simp [chunks_nil] at hc
  | succ m ih =>
      intro l hl c hc
      by_cases hnil : l = []
      · subst hnil; simp [chunks_nil] at hc
      · rw [chunks_cons b m l hnil] at hc
        have hpos : 0 < l.length := List.length_pos.mpr hnil
        rcases List.mem_cons.mp hc with hc1 | hc2
        · rw [hc1, List.length_take]
          omega
        · have hlen : (l.drop b).length ≤ m := by
            simp only [List.length_drop]; omega
          exact ih (l.drop b) hlen c hc2

/-- The rounded batch size is positive exactly when 2·n exceeds k. -/
theorem pyRound_pos_iff (n k : Nat) (hk : 0 < k) :
    0 < pyRound n k ↔ k < 2 * n := by
  have hmod : n % k < k := Nat.mod_lt n hk
  have hdiv : k * (n / k) + n % k = n := Nat.div_add_mod n k
  have hA : (0 < n / k ∧ k ≤ k * (n / k)) ∨ (n / k = 0 ∧ k * (n / k) = 0) := by
    rcases Nat.eq_zero_or_pos (n / k) with h0 | hpos
    · right; rw [h0]; simp
    · left
      refine ⟨hpos, ?_⟩
      calc k = k * 1 := (Nat.mul_one k).symm
        _ ≤ k * (n / k) := Nat.mul_le_mul_left k hpos
  simp only [pyRound]
  generalize hr : n % k = r at hmod hdiv ⊢
  generalize hP : k * (n / k) = P at hdiv hA
  generalize hq : n / k = q at hA ⊢
  split_ifs with h1 h2 h3 <;> omega

/-! ## Claims C1 and C2 -/

/-- C1 (corrected): the claim as written fails — for N = 1, K = 3 Python
computes `round(1/3) = 0` and `range(0, 1, 0)` raises `ValueError`, so
`get_batches` does not return normally for every N ≥ 1, K ≥ 1.
This theorem proves the amended claim: for K ≥ 1, `get_batches data K`
returns normally exactly when K < 2·N (i.e. the rounded batch size is
positive), and in that case the concatenation of its output chunks, in
order, is exactly the input list; otherwise the call raises. -/
theorem get_batches_concat_spec {α : Type} (data : List α) (k : Nat)
    (hk : 1 ≤ k) :
    (k < 2 * data.length →
      ∃ out, get_batches data k = some out ∧ out.flatten = data) ∧
    (2 * data.length ≤ k → get_batches data k = none) := by
  constructor
  · intro h2
    have hb : 0 < pyRound data.length k := (pyRound_pos_iff _ _ hk).mpr h2
    refine ⟨chunks (pyRound data.length k) data.length data, ?_, ?_⟩
    · simp only [get_batches]
      rw [if_neg (by omega)]
    · exact chunks_join _ (by omega) data.length data (Nat.le_refl _)
  · intro hle
    have h1 : ¬ 0 < pyRound data.length k := by
      rw [pyRound_pos_iff _ _ hk]; omega
    simp only [get_batches]
    rw [if_pos (by omega)]

/-- Witness for C1's amended theorem at data = [10, 20, 30], K = 2. -/
theorem get_batches_concat_spec_witness :
    ∃ out, get_batches [10, 20, 30] 2 = some out ∧
      out.flatten = [10, 20, 30] :=
  (get_batches_concat_spec [10, 20, 30] 2 (by decide)).1 (by decide)

/-- C1 counterexample: with a single item and K = 3 (both within the
claim's N ≥ 1, K ≥ 1 range), `round(1/3) = 0`, the slicing loop's range
step is zero, and Python raises `ValueError` — the call does not return
normally. -/
theorem get_batches_valueerror_counterexample :
    get_batches ([7] : List Nat) 3 = none := by decide

/-- C2 (corrected): the batch size is round-half-to-even(N/K), not
ceil(N/K), and the chunk count ⌈N / b⌉ can exceed K.  Amended claim:
for K ≥ 1 and K < 2·N, with b = round-half-to-even(N/K), `get_batches`
returns ⌈N / b⌉ chunks; every chunk except possibly the last has length
exactly b, and every chunk is nonempty and no longer than b. -/
theorem get_batches_chunk_shape {α : Type} (data : List α) (k : Nat)
    (hk : 1 ≤ k) (h2 : k < 2 * data.length) :
    ∃ out, get_batches data k = some out ∧
      out.length =
        (data.length + pyRound data.length k - 1) / pyRound data.length k ∧
      (∀ c ∈ out.dropLast, c.length = pyRound data.length k) ∧
      (∀ c ∈ out, 1 ≤ c.length ∧ c.length ≤ pyRound data.length k) := by
  have hb : 0 < pyRound data.length k := (pyRound_pos_iff _ _ hk).mpr h2
  refine ⟨chunks (pyRound data.length k) data.length data, ?_, ?_, ?_, ?_⟩
  · simp only [get_batches]
    rw [if_neg (by omega)]
  · exact chunks_length _ (by omega) data.length data (Nat.le_refl _)
  · exact chunks_dropLast_length _ (by omega) data.length data (Nat.le_refl _)
  · exact chunks_mem_length _ (by omega) data.length data (Nat.le_refl _)

/-- Witness for C2's amended theorem at data = [0, 1, 2], K = 2. -/
theorem get_batches_chunk_shape_witness :
    ∃ out, get_batches ([0, 1, 2] : List Nat) 2 = some out ∧
      out.length = (([0, 1, 2] : List Nat).length + pyRound 3 2 - 1) /
        pyRound 3 2 ∧
      (∀ c ∈ out.dropLast, c.length = pyRound 3 2) ∧
      (∀ c ∈ out, 1 ≤ c.length ∧ c.length ≤ pyRound 3 2) :=
  get_batches_chunk_shape [0, 1, 2] 2 (by decide) (by decide)

/-- C2 counterexample: for N = 10, K = 4 the code returns five chunks of
length two — the chunk count 5 exceeds K = 4, and the common chunk
length 2 is not ceil(10/4) = 3 as the claim states. -/
theorem get_batches_ceil_counterexample :
    get_batches (List.range 10) 4 =
      some [[0, 1], [2, 3], [4, 5], [6, 7], [8, 9]] ∧
    4 < 5 ∧ (2 : Nat) ≠ (10 + 4 - 1) / 4 := by
  exact ⟨by decide, by decide, by decide⟩

theorem matchOSAt_sound (l g : List Char) (h : matchOSAt l = some g) :
    ∃ a1 c a2 post,
      l = 'O' :: 'S' :: '=' :: (a1 ++ c :: (a2 ++ post)) ∧
      a1 ≠ [] ∧ (∀ x ∈ a1, isAlphaAZ x = true) ∧
      isSpaceRe c = true ∧
      a2 ≠ [] ∧ (∀ x ∈ a2, isAlphaAZ x = true) := by
  match l with
  | [] => simp [matchOSAt] at h
  | [o] => simp [matchOSAt] at h
  | [o, s] => simp [matchOSAt] at h
  | o :: s :: e :: rest =>
      simp only [matchOSAt] at h
      split_ifs at h with hose h1
      · obtain ⟨rfl, rfl, rfl⟩ := hose
        revert h
        cases hdw : rest.dropWhile isAlphaAZ with
        | nil => intro h; simp at h
        | cons c r2 =>
            intro h
            dsimp only at h
            split_ifs at h with hsp h2
            · have hg : rest.takeWhile isAlphaAZ ++ c :: r2.takeWhile isAlphaAZ = g := by
                simpa using h
              refine ⟨rest.takeWhile isAlphaAZ, c, r2.takeWhile isAlphaAZ,
                r2.dropWhile isAlphaAZ, ?_, ?_, ?_, hsp, ?_, ?_⟩
              · have hr : rest = rest.takeWhile isAlphaAZ ++ (c :: r2) := by
                  rw [← hdw, List.takeWhile_append_dropWhile]
                have hr2 : r2 = r2.takeWhile isAlphaAZ ++ r2.dropWhile isAlphaAZ :=
                  (List.takeWhile_append_dropWhile _ _).symm
                conv_lhs => rw [hr, hr2]
              · intro hnil
                rw [hnil] at h1
                simp at h1
              · intro x hx
                exact List.mem_takeWhile_imp hx
              · intro hnil
                rw [hnil] at h2
                simp at h2
              · intro x hx
                exact List.mem_takeWhile_imp hx

theorem searchOS_sound :
    ∀ l g : List Char, searchOS l = some g → containsOS l := by
  intro l
  induction l with
  | nil => intro g h; simp [searchOS] at h
  | cons x xs ih =>
      intro g h
      simp only [searchOS] at h
      cases hm : matchOSAt (x :: xs) with
      | some g2 =>
          obtain ⟨a1, c, a2, post, heq, h1, h2, h3, h4, h5⟩ :=
            matchOSAt_sound _ _ hm
          exact ⟨[], a1, c, a2, post, by rw [List.nil_append, heq],
            h1, h2, h3, h4, h5⟩
      | none =>
          rw [hm] at h
          obtain ⟨pre, a1, c, a2, post, heq, h1, h2, h3, h4, h5⟩ := ih g h
          exact ⟨x :: pre, a1, c, a2, post, by rw [List.cons_append, heq],
            h1, h2, h3, h4, h5⟩

theorem isSpaceRe_not_alpha (c : Char) (h : isSpaceRe c = true) :
    isAlphaAZ c = false := by
  simp only [isSpaceRe, Bool.or_eq_true, beq_iff_eq] at h
  rcases h with ((((h | h) | h) | h) | h) | h <;> subst h <;> decide

/-- `takeWhile`/`dropWhile` on a run of satisfying characters followed by a
non-satisfying one. -/
theorem takeWhile_run (p : Char → Bool) :
    ∀ (l1 : List Char) (c : Char) (l2 : List Char),
      (∀ x ∈ l1, p x = true) → p c = false →
      (l1 ++ c :: l2).takeWhile p = l1 ∧
      (l1 ++ c :: l2).dropWhile p = c :: l2 := by
  intro l1
  induction l1 with
  | nil =>
      intro c l2 _ hc
      simp [List.takeWhile_cons, List.dropWhile_cons, hc]
  | cons a as ih =>
      intro c l2 hall hc
      have ha : p a = true := hall a (List.mem_cons_self a as)
      have hrest : ∀ x ∈ as, p x = true := fun x hx =>
        hall x (List.mem_cons_of_mem a hx)
      obtain ⟨ht, hd⟩ := ih c l2 hrest hc
      constructor
      · simp [List.takeWhile_cons, ha, ht]
      · simp [List.dropWhile_cons, ha, hd]

theorem matchOSAt_eval (rest : List Char) :
    matchOSAt ('O' :: 'S' :: '=' :: rest) =
      (if (rest.takeWhile isAlphaAZ).isEmpty then none
       else
         match rest.dropWhile isAlphaAZ with
         | [] => none
         | c :: r2 =>
             if isSpaceRe c then
               if (r2.takeWhile isAlphaAZ).isEmpty then none
               else some (rest.takeWhile isAlphaAZ ++ c :: r2.takeWhile isAlphaAZ)
             else none) := by
  simp only [matchOSAt]
  rw [if_pos]
  exact ⟨trivial, trivial, trivial⟩

theorem matchOSAt_complete (a1 : List Char) (c : Char) (a2 post : List Char)
    (h1 : a1 ≠ []) (h2 : ∀ x ∈ a1, isAlphaAZ x = true)
    (h3 : isSpaceRe c = true)
    (h4 : a2 ≠ []) (h5 : ∀ x ∈ a2, isAlphaAZ x = true) :
    (matchOSAt ('O' :: 'S' :: '=' :: (a1 ++ c :: (a2 ++ post)))).isSome := by
  have hca : isAlphaAZ c = false := isSpaceRe_not_alpha c h3
  obtain ⟨ht, hd⟩ := takeWhile_run isAlphaAZ a1 c (a2 ++ post) h2 hca
  obtain ⟨y, ys, rfl⟩ := List.exists_cons_of_ne_nil h4
  have hy : isAlphaAZ y = true := h5 y (List.mem_cons_self y ys)
  rw [matchOSAt_eval, ht, hd]
  rw [if_neg (by simp [h1])]
  dsimp only
  rw [if_pos h3]
  have hne : ¬ (((y :: ys ++ post).takeWhile isAlphaAZ).isEmpty = true) := by
    simp [List.takeWhile_cons, hy]
  rw [if_neg hne]
  simp

theorem searchOS_isSome_of_suffix :
    ∀ (pre tail : List Char), (matchOSAt tail).isSome →
      (searchOS (pre ++ tail)).isSome := by
  intro pre
  induction pre with
  | nil =>
      intro tail hm
      cases tail with
      | nil => simp [matchOSAt] at hm
      | cons x xs =>
          simp only [List.nil_append, searchOS]
          cases hmm : matchOSAt (x :: xs) with
          | some g => simp
          | none => rw [hmm] at hm; simp at hm
  | cons p ps ih =>
      intro tail hm
      simp only [List.cons_append, searchOS]
      cases hmm : matchOSAt (p :: (ps ++ tail)) with
      | some g => simp
      | none => exact ih tail hm

theorem searchOS_isSome_of_containsOS (l : List Char) (h : containsOS l) :
    (searchOS l).isSome := by
  obtain ⟨pre, a1, c, a2, post, heq, h1, h2, h3, h4, h5⟩ := h
  rw [heq]
  exact searchOS_isSome_of_suffix pre _
    (matchOSAt_complete a1 c a2 post h1 h2 h3 h4 h5)

/-- A text on which the search comes back empty contains no occurrence of
the pattern. -/
theorem not_containsOS (l : List Char) (h : searchOS l = none) :
    ¬ containsOS l := by
  intro hcon
  have := searchOS_isSome_of_containsOS l hcon
  rw [h] at this
  simp at this

theorem toLower_not_upper (c : Char) :
    ¬ ('A' ≤ c.toLower ∧ c.toLower ≤ 'Z') := by
  have hle : ∀ a b : Char, (a ≤ b) = (a.toNat ≤ b.toNat) := fun a b => rfl
  simp only [Char.toLower]
  split_ifs with h
  · have hv : Nat.isValidChar (c.toNat + 32) := Or.inl (by omega)
    have ht : (Char.ofNat (c.toNat + 32)).toNat = c.toNat + 32 := by
      rw [Char.ofNat, dif_pos hv]; rfl
    intro hcon
    have hA : ('A').toNat = 65 := rfl
    have hZ : ('Z').toNat = 90 := rfl
    have hc1 : ('A').toNat ≤ (Char.ofNat (c.toNat + 32)).toNat := by
      rw [← hle]; exact hcon.1
    have hc2 : (Char.ofNat (c.toNat + 32)).toNat ≤ ('Z').toNat := by
      rw [← hle]; exact hcon.2
    omega
  · intro hcon
    have hA : ('A').toNat = 65 := rfl
    have hZ : ('Z').toNat = 90 := rfl
    have hc1 : ('A').toNat ≤ c.toNat := by rw [← hle]; exact hcon.1
    have hc2 : c.toNat ≤ ('Z').toNat := by rw [← hle]; exact hcon.2
    exact h ⟨by omega, by omega⟩

theorem find_organism_name_of_not_contains (l : List Char)
    (h : ¬ containsOS l) : find_organism_name (String.mk l) = "no_name" := by
  unfold find_organism_name
  have hd : (String.mk l).data = l := rfl
  rw [hd]
  cases hs : searchOS l with
  | none => rfl
  | some g => exact absurd (searchOS_sound l g hs) h

theorem find_organism_name_normalized (t : String)
    (h : find_organism_name t ≠ "no_name") :
    ∀ c ∈ (find_organism_name t).data, c ≠ ' ' ∧ ¬ ('A' ≤ c ∧ c ≤ 'Z') := by
  intro c hc
  unfold find_organism_name at hc
  cases hs : searchOS t.data with
  | none =>
      exfalso
      apply h
      unfold find_organism_name
      rw [hs]
  | some g =>
      rw [hs] at hc
      dsimp only at hc
      have hc2 : c ∈ normalizeName g := hc
      unfold normalizeName at hc2
      obtain ⟨d, hd, hdc⟩ := List.mem_map.mp hc2
      by_cases hsp : d = ' '
      · rw [if_pos hsp] at hdc
        subst hdc
        exact ⟨by decide, by decide⟩
      · rw [if_neg hsp] at hdc
        subst hdc
        obtain ⟨e, _, hde⟩ := List.mem_map.mp hd
        refine ⟨hsp, ?_⟩
        rw [← hde]
        exact toLower_not_upper e

/-! ## Claim C3 -/

/-- C3 counterexample: on a FASTA header containing `[Homo sapiens]` (and
no `OS=` key), `Parser.find_organism_name` returns the sentinel
`"no_name"`, not `"homo_sapiens"`: its only pattern is `OS=...`.  The
UI variant's renamer does match the bracket, but uses the raw group
`"Homo sapiens"` — not lowercased, spaces kept — so neither code path
produces `"homo_sapiens"` from a bracketed name. -/
theorem organism_name_bracket_counterexample :
    find_organism_name ">NP_000537.3 tumor protein p53 [Homo sapiens]"
      = "no_name" ∧
    "no_name" ≠ "homo_sapiens" ∧
    rename_bracket_name ">NP_000537.3 tumor protein p53 [Homo sapiens]"
      = some "Homo sapiens" ∧
    "Homo sapiens" ≠ "homo_sapiens" := by
  exact ⟨by decide, by decide, by decide, by decide⟩

/-- C3 (corrected): `find_organism_name` recognizes only the `OS=` pattern.
Amended claim: applied to text containing `OS=Homo sapiens`, it returns
`"homo_sapiens"`; applied to text containing `[Homo sapiens]` but no
`OS=` pattern, it returns `"no_name"`; applied to any text with no
`OS=([A-Za-z]+\s[A-Za-z]+)` occurrence, it returns `"no_name"`; and
every non-sentinel result contains no space and no uppercase ASCII
letter (spaces are replaced by underscores after lowercasing). -/
theorem find_organism_name_spec :
    find_organism_name
      ">sp|P04637|P53_HUMAN Cellular tumor antigen p53 OS=Homo sapiens OX=9606"
      = "homo_sapiens" ∧
    find_organism_name "tumor protein p53 [Homo sapiens]" = "no_name" ∧
    (∀ l : List Char, ¬ containsOS l →
      find_organism_name (String.mk l) = "no_name") ∧
    (∀ t : String, find_organism_name t ≠ "no_name" →
      ∀ c ∈ (find_organism_name t).data, c ≠ ' ' ∧ ¬ ('A' ≤ c ∧ c ≤ 'Z')) := by
  refine ⟨by decide, by decide, ?_, ?_⟩
  · intro l hl
    exact find_organism_name_of_not_contains l hl
  · intro t ht
    exact find_organism_name_normalized t ht

/-- Witness for C3's amended theorem: the no-match clause at the concrete
text "zq" and the normalization clause at the concrete text
"OS=Homo sapiens", character 'h'. -/
theorem find_organism_name_spec_witness :
    find_organism_name (String.mk ['z', 'q']) = "no_name" ∧
    ('h' ≠ ' ' ∧ ¬ ('A' ≤ 'h' ∧ 'h' ≤ 'Z')) :=
  ⟨find_organism_name_spec.2.2.1 ['z', 'q']
      (not_containsOS ['z', 'q'] (by decide)),
   find_organism_name_spec.2.2.2 "OS=Homo sapiens" (by decide) 'h' (by decide)⟩

/-! ## Claims C5, C4, C6, C10 -/

/-- C5 (confirmed): when the target path already exists, the write is
skipped, the directory (hence the existing file's contents) is returned
unchanged, and the conflict is reported as an outcome, not an exception
(the function is total and the caller continues). -/
theorem save_file_existing_skips (fs : FS) (organism_name : String)
    (tax_id : Nat) (text : String)
    (h : (fs.lookup (fasta_file_name organism_name tax_id)).isSome) :
    save_file_as_fasta fs organism_name tax_id text =
      (fs, Outcome.conflict (fasta_file_name organism_name tax_id)) := by
  simp only [save_file_as_fasta]
  cases hl : fs.lookup (fasta_file_name organism_name tax_id) with
  | some v => rfl
  | none => rw [hl] at h; simp at h

/-- Witness for C5 at a directory already holding `a_1.fasta`. -/
theorem save_file_existing_skips_witness :
    save_file_as_fasta [(fasta_file_name "a" 1, "X")] "a" 1 "Y" =
      ([(fasta_file_name "a" 1, "X")],
       Outcome.conflict (fasta_file_name "a" 1)) :=
  save_file_existing_skips [(fasta_file_name "a" 1, "X")] "a" 1 "Y"
    (by decide)

/-- C4 (corrected): the code tests `status_code != 200`, not "non-2xx".
Amended claim: `download_proteins` skips (directory unchanged, a log
outcome, nothing raised) exactly when the status is not 200, or the
body is empty, or the target file already exists; for a 200 response
with a non-empty body whose target file does not exist, the body is
persisted under `<organism>_<taxid>.fasta`. -/
theorem download_proteins_cases (fs : FS) (response : Response)
    (tax_id : Nat) :
    (response.status ≠ 200 →
      download_proteins fs response tax_id =
        (fs, Outcome.badStatus response.status)) ∧
    (response.status = 200 → response.text = "" →
      download_proteins fs response tax_id = (fs, Outcome.emptyBody)) ∧
    (response.status = 200 → response.text ≠ "" →
      fs.lookup (fasta_file_name (find_organism_name response.text) tax_id)
        = none →
      download_proteins fs response tax_id =
        ((fasta_file_name (find_organism_name response.text) tax_id,
            response.text) :: fs,
         Outcome.saved
           (fasta_file_name (find_organism_name response.text) tax_id))) ∧
    (response.status = 200 → response.text ≠ "" →
      (fs.lookup
        (fasta_file_name (find_organism_name response.text) tax_id)).isSome →
      download_proteins fs response tax_id =
        (fs, Outcome.conflict
          (fasta_file_name (find_organism_name response.text) tax_id))) := by
  refine ⟨?_, ?_, ?_, ?_⟩
  · intro hs
    simp only [download_proteins]
    rw [if_pos hs]
  · intro hs ht
    simp only [download_proteins]
    rw [if_neg (by simp [hs]), if_pos ht]
  · intro hs ht hl
    simp only [download_proteins]
    rw [if_neg (by simp [hs]), if_neg ht]
    simp only [save_file_as_fasta]
    rw [hl]
  · intro hs ht hl
    simp only [download_proteins]
    rw [if_neg (by simp [hs]), if_neg ht]
    simp only [save_file_as_fasta]
    cases hll : fs.lookup
        (fasta_file_name (find_organism_name response.text) tax_id) with
    | some v => rfl
    | none => rw [hll] at hl; simp at hl

/-- Witness for C4's amended theorem: a 404 skip and a 200 save, both at
concrete inputs. -/
theorem download_proteins_cases_witness :
    download_proteins [] (Response.mk 404 "x") 7 =
      ([], Outcome.badStatus 404) ∧
    download_proteins [] (Response.mk 200 "x") 7 =
      ([(fasta_file_name (find_organism_name "x") 7, "x")],
       Outcome.saved (fasta_file_name (find_organism_name "x") 7)) :=
  ⟨(download_proteins_cases [] (Response.mk 404 "x") 7).1 (by decide),
   (download_proteins_cases [] (Response.mk 200 "x") 7).2.2.1 (by decide)
     (by decide) (by decide)⟩

/-- C4 counterexample: a 204 response is a success (2xx) with a non-empty
body, but the code compares against 200 only: it skips and persists
nothing, where the claim requires the body to be persisted. -/
theorem download_proteins_2xx_counterexample :
    200 ≤ 204 ∧ 204 < 300 ∧ "x" ≠ "" ∧
    download_proteins [] (Response.mk 204 "x") 7 =
      ([], Outcome.badStatus 204) := by
  exact ⟨by decide, by decide, by decide, by decide⟩

/-- C6 (confirmed): running the fetch-and-persist step twice with the same
identifier and the same fetched response leaves the directory exactly as
after the first run, and when the first run saved a file, the second run
reports a conflict on that same file (the write is skipped). -/
theorem download_twice_idempotent (fs : FS) (response : Response)
    (tax_id : Nat) :
    (download_proteins (download_proteins fs response tax_id).1 response
        tax_id).1 = (download_proteins fs response tax_id).1 ∧
    (∀ n, (download_proteins fs response tax_id).2 = Outcome.saved n →
      (download_proteins (download_proteins fs response tax_id).1 response
          tax_id).2 = Outcome.conflict n) := by
  by_cases hs : response.status = 200
  · by_cases ht : response.text = ""
    · have h1 : download_proteins fs response tax_id =
          (fs, Outcome.emptyBody) := by
        simp only [download_proteins]
        rw [if_neg (by simp [hs]), if_pos ht]
      constructor
      · simp only [h1]
      · intro n hn
        rw [h1] at hn
        simp at hn
    · cases hl : fs.lookup
          (fasta_file_name (find_organism_name response.text) tax_id) with
      | some v =>
          have h1 : download_proteins fs response tax_id =
              (fs, Outcome.conflict
                (fasta_file_name (find_organism_name response.text)
                  tax_id)) := by
            simp only [download_proteins]
            rw [if_neg (by simp [hs]), if_neg ht]
            simp only [save_file_as_fasta]
            rw [hl]
          constructor
          · simp only [h1]
          · intro n hn
            rw [h1] at hn
            simp at hn
      | none =>
          have h1 : download_proteins fs response tax_id =
              ((fasta_file_name (find_organism_name response.text) tax_id,
                  response.text) :: fs,
               Outcome.saved
                 (fasta_file_name (find_organism_name response.text)
                   tax_id)) := by
            simp only [download_proteins]
            rw [if_neg (by simp [hs]), if_neg ht]
            simp only [save_file_as_fasta]
            rw [hl]
          have h2 : download_proteins
              ((fasta_file_name (find_organism_name response.text) tax_id,
                  response.text) :: fs) response tax_id =
              ((fasta_file_name (find_organism_name response.text) tax_id,
                  response.text) :: fs,
               Outcome.conflict
                 (fasta_file_name (find_organism_name response.text)
                   tax_id)) := by
            simp only [download_proteins]
            rw [if_neg (by simp [hs]), if_neg ht]
            simp only [save_file_as_fasta]
            have hself : ((fasta_file_name (find_organism_name response.text)
                tax_id, response.text) :: fs).lookup
                (fasta_file_name (find_organism_name response.text) tax_id)
                = some response.text := by
              simp [List.lookup]
            rw [hself]
          constructor
          · simp only [h1, h2]
          · intro n hn
            rw [h1] at hn
            simp only at hn
            have hne : fasta_file_name (find_organism_name response.text)
                tax_id = n := by
              exact Outcome.saved.inj hn
            subst hne
            simp only [h1, h2]
  · have h1 : download_proteins fs response tax_id =
        (fs, Outcome.badStatus response.status) := by
      simp only [download_proteins]
      rw [if_pos hs]
    constructor
    · simp only [h1]
    · intro n hn
      rw [h1] at hn
      simp at hn

/-- Witness for C6 at a fresh directory, a 200 response with body "x",
identifier 7: the first run saves, the second reports a conflict. -/
theorem download_twice_idempotent_witness :
    (download_proteins (download_proteins [] (Response.mk 200 "x") 7).1
        (Response.mk 200 "x") 7).2 =
      Outcome.conflict (fasta_file_name (find_organism_name "x") 7) :=
  (download_twice_idempotent [] (Response.mk 200 "x") 7).2
    (fasta_file_name (find_organism_name "x") 7) (by decide)

/-- C10 (confirmed): one fetch-and-persist step never modifies or removes
a pre-existing file — every name resolvable before the call resolves to
the same contents after it — and the directory grows by at most one
entry. -/
theorem download_preserves_files (fs : FS) (response : Response)
    (tax_id : Nat) :
    (∀ name, (fs.lookup name).isSome →
      (download_proteins fs response tax_id).1.lookup name =
        fs.lookup name) ∧
    (download_proteins fs response tax_id).1.length ≤ fs.length + 1 := by
  by_cases hs : response.status = 200
  · by_cases ht : response.text = ""
    · have h1 : download_proteins fs response tax_id =
          (fs, Outcome.emptyBody) := by
        simp only [download_proteins]
        rw [if_neg (by simp [hs]), if_pos ht]
      rw [h1]
      exact ⟨fun name _ => rfl, by dsimp only; omega⟩
    · cases hl : fs.lookup
          (fasta_file_name (find_organism_name response.text) tax_id) with
      | some v =>
          have h1 : download_proteins fs response tax_id =
              (fs, Outcome.conflict
                (fasta_file_name (find_organism_name response.text)
                  tax_id)) := by
            simp only [download_proteins]
            rw [if_neg (by simp [hs]), if_neg ht]
            simp only [save_file_as_fasta]
            rw [hl]
          rw [h1]
          exact ⟨fun name _ => rfl, by dsimp only; omega⟩
      | none =>
          have h1 : download_proteins fs response tax_id =
              ((fasta_file_name (find_organism_name response.text) tax_id,
                  response.text) :: fs,
               Outcome.saved
                 (fasta_file_name (find_organism_name response.text)
                   tax_id)) := by
            simp only [download_proteins]
            rw [if_neg (by simp [hs]), if_neg ht]
            simp only [save_file_as_fasta]
            rw [hl]
          rw [h1]
          constructor
          · intro name hname
            have hne : name ≠
                fasta_file_name (find_organism_name response.text) tax_id := by
              intro heq
              rw [heq, hl] at hname
              simp at hname
            have hbeq : (name ==
                fasta_file_name (find_organism_name response.text) tax_id)
                = false := by
              exact beq_eq_false_iff_ne.mpr hne
            simp [List.lookup, hbeq]
          · simp
  · have h1 : download_proteins fs response tax_id =
        (fs, Outcome.badStatus response.status) := by
      simp only [download_proteins]
      rw [if_pos hs]
    rw [h1]
    exact ⟨fun name _ => rfl, by dsimp only; omega⟩

/-- Witness for C10: a directory holding `f` keeps `f` and its contents
across a saving call, and grows by at most one entry. -/
theorem download_preserves_files_witness :
    (download_proteins [("f", "X")] (Response.mk 200 "y") 2).1.lookup "f" =
      (([("f", "X")] : FS).lookup "f") ∧
    (download_proteins [("f", "X")] (Response.mk 200 "y") 2).1.length ≤ 2 :=
  ⟨(download_preserves_files [("f", "X")] (Response.mk 200 "y") 2).1 "f"
      (by decide),
   (download_preserves_files [("f", "X")] (Response.mk 200 "y") 2).2⟩

/-! ## Claim C8 -/

/-- C8 (confirmed): with identifiers [435, 436] and a transport returning
FASTA text containing `OS=Escherichia coli` for 435 and an empty body
for 436, a run over a fresh directory produces exactly one file, named
`escherichia_coli_435.fasta`, and exactly one warning outcome — the
empty-body skip — for 436. -/
theorem parse_http_end_to_end :
    parse_http
      (fun t => if t = 435 then Response.mk 200 ecoliFasta
                else Response.mk 200 "")
      [] [435, 436] =
      ([("escherichia_coli_435.fasta", ecoliFasta)],
       [(435, Outcome.saved "escherichia_coli_435.fasta"),
        (436, Outcome.emptyBody)]) ∧
    fasta_file_name "escherichia_coli" 435 = "escherichia_coli_435.fasta" := by
  exact ⟨by decide, by decide⟩

theorem probe_from_sound (dirs : List String) (path : String) :
    ∀ (r i0 i : Nat), probe_from dirs path i0 r = some i →
      i0 ≤ i ∧ i < i0 + r ∧ dirs.contains (folder_name path i) = false ∧
      ∀ j, i0 ≤ j → j < i → dirs.contains (folder_name path j) = true := by
  intro r
  induction r with
  | zero => intro i0 i h; simp [probe_from] at h
  | succ m ih =>
      intro i0 i h
      simp only [probe_from] at h
      by_cases hc : dirs.contains (folder_name path i0) = true
      · rw [if_pos hc] at h
        obtain ⟨h1, h2, h3, h4⟩ := ih (i0 + 1) i h
        refine ⟨by omega, by omega, h3, ?_⟩
        intro j hj1 hj2
        rcases Nat.eq_or_lt_of_le hj1 with heq | hlt
        · rw [← heq]; exact hc
        · exact h4 j (by omega) hj2
      · rw [if_neg hc] at h
        injection h with h
        subst h
        refine ⟨Nat.le_refl _, by omega, by simpa using hc, ?_⟩
        intro j hj1 hj2
        omega

theorem probe_from_complete (dirs : List String) (path : String) :
    ∀ (r i0 i : Nat), i0 ≤ i → i < i0 + r →
      dirs.contains (folder_name path i) = false →
      (∀ j, i0 ≤ j → j < i → dirs.contains (folder_name path j) = true) →
      probe_from dirs path i0 r = some i := by
  intro r
  induction r with
  | zero =>
      intro i0 i h1 h2 h3 h4
      exact absurd h2 (by omega)
  | succ m ih =>
      intro i0 i h1 h2 h3 h4
      by_cases hc : i0 = i
      · subst hc
        simp only [probe_from]
        rw [if_neg (fun hcc => by rw [h3] at hcc; exact Bool.noConfusion hcc)]
      · have hi : i0 < i := by omega
        have hcon : dirs.contains (folder_name path i0) = true :=
          h4 i0 (Nat.le_refl _) hi
        simp only [probe_from]
        rw [if_pos hcon]
        exact ih (i0 + 1) i (by omega) (by omega) h3
          (fun j hj1 hj2 => h4 j (by omega) hj2)

theorem probe_from_exhausted (dirs : List String) (path : String) :
    ∀ (r i0 : Nat),
      (∀ j, i0 ≤ j → j < i0 + r →
        dirs.contains (folder_name path j) = true) →
      probe_from dirs path i0 r = none := by
  intro r
  induction r with
  | zero => intro i0 _; rfl
  | succ m ih =>
      intro i0 h
      simp only [probe_from]
      rw [if_pos (h i0 (Nat.le_refl _) (by omega))]
      exact ih (i0 + 1) (fun j hj1 hj2 => h j (by omega) (by omega))

theorem parser_init_ok_inv (dirs : List String) (path d : String)
    (fs1 : List String)
    (h : parser_init dirs path = Except.ok (d, fs1)) :
    ∃ i, probe_from dirs path 0 40 = some i ∧
      d = folder_name path i ∧ fs1 = folder_name path i :: dirs := by
  unfold parser_init at h
  split_ifs at h with hp
  · unfold create_download_folder at h
    cases hpr : probe_from dirs path 0 40 with
    | some i =>
        rw [hpr] at h
        refine ⟨i, rfl, ?_, ?_⟩
        · have := Except.ok.inj h
          exact (congrArg Prod.fst this).symm
        · have := Except.ok.inj h
          exact (congrArg Prod.snd this).symm
    | none =>
        rw [hpr] at h
        exact Except.noConfusion h

/-- C7 (confirmed): the initializer probes `proteins(0)`, `proteins(1)`,
... in increasing order, takes the first suffix that does not already
exist, and creates it; if all 40 candidate names exist it fails with
the exhaustion error; if the base path is not an existing directory it
fails with a configuration error before creating anything; and two
successive successful initializations against the same base path yield
distinct directories. -/
theorem parser_init_spec (dirs : List String) (path : String) :
    (dirs.contains path = false →
      parser_init dirs path = Except.error "invalid save path") ∧
    (dirs.contains path = true →
      (∀ i, i < 40 → dirs.contains (folder_name path i) = true) →
      parser_init dirs path =
        Except.error "ERROR: Unable to create folder.") ∧
    (∀ i, dirs.contains path = true → i < 40 →
      dirs.contains (folder_name path i) = false →
      (∀ j, j < i → dirs.contains (folder_name path j) = true) →
      parser_init dirs path =
        Except.ok (folder_name path i, folder_name path i :: dirs)) ∧
    (∀ d1 fs1 d2 fs2,
      parser_init dirs path = Except.ok (d1, fs1) →
      parser_init fs1 path = Except.ok (d2, fs2) → d1 ≠ d2) := by
  refine ⟨?_, ?_, ?_, ?_⟩
  · intro hp
    unfold parser_init
    rw [if_neg (fun hc => by rw [hp] at hc; exact Bool.noConfusion hc)]
  · intro hp hall
    unfold parser_init
    rw [if_pos hp]
    unfold create_download_folder
    rw [probe_from_exhausted dirs path 40 0
      (fun j hj1 hj2 => hall j (by omega))]
  · intro i hp hi hfree hprev
    unfold parser_init
    rw [if_pos hp]
    unfold create_download_folder
    rw [probe_from_complete dirs path 40 0 i (by omega) (by omega) hfree
      (fun j hj1 hj2 => hprev j hj2)]
  · intro d1 fs1 d2 fs2 h1 h2
    obtain ⟨i1, hp1, hd1, hfs1⟩ := parser_init_ok_inv dirs path d1 fs1 h1
    obtain ⟨i2, hp2, hd2, hfs2⟩ := parser_init_ok_inv fs1 path d2 fs2 h2
    obtain ⟨_, _, hfree2, _⟩ := probe_from_sound fs1 path 40 0 i2 hp2
    intro heq
    have hmem : fs1.contains d1 = true := by
      rw [hfs1, hd1]
      simp
    have hfree2a : fs1.contains d2 = false := by
      rw [hd2]
      exact hfree2
    rw [← heq] at hfree2a
    rw [hmem] at hfree2a
    exact Bool.noConfusion hfree2a

/-- Witness for C7 at the base path "base" existing alone on disk: the
first initialization creates `base/proteins(0)`; starting from the state
after it, the second creates `base/proteins(1)`, a distinct directory. -/
theorem parser_init_spec_witness :
    parser_init ["base"] "base" =
      Except.ok (folder_name "base" 0, folder_name "base" 0 :: ["base"]) ∧
    "base/proteins(0)" ≠ "base/proteins(1)" :=
  ⟨(parser_init_spec ["base"] "base").2.2.1 0 (by decide) (by decide)
      (by decide) (fun j hj => absurd hj (by omega)),
   (parser_init_spec ["base"] "base").2.2.2 "base/proteins(0)"
      ["base/proteins(0)", "base"] "base/proteins(1)"
      ["base/proteins(1)", "base/proteins(0)", "base"]
      (by rfl) (by rfl)⟩

/-! ## Claim C9 -/

/-- C9 (code bug): the guard `i % batch_size == 0 and i != 0` fires after
the fetch at index `batch_size`, i.e. after `batch_size + 1` fetches.
With twelve identifiers and the default batch size 10, eleven fetches
complete before the first transition into the waiting state — the
docstring's "batches of 10 pieces" and the spec's "after every
fixed-size sub-batch (default 10)" both require ten.  The final wait
does precede renaming, as claimed. -/
theorem parse_ui_wait_cadence :
    parse_ui (List.range 12) 10 =
      [UIEvent.fetch 0, UIEvent.fetch 1, UIEvent.fetch 2, UIEvent.fetch 3,
       UIEvent.fetch 4, UIEvent.fetch 5, UIEvent.fetch 6, UIEvent.fetch 7,
       UIEvent.fetch 8, UIEvent.fetch 9, UIEvent.fetch 10, UIEvent.wait,
       UIEvent.fetch 11, UIEvent.wait, UIEvent.renameAll] ∧
    ((parse_ui (List.range 12) 10).takeWhile
        (fun e => !(e == UIEvent.wait))).length = 11 ∧
    (∀ ids b, ∃ pre, parse_ui ids b =
        pre ++ [UIEvent.wait, UIEvent.renameAll]) := by
  refine ⟨by decide, by decide, ?_⟩
  intro ids b
  exact ⟨ui_loop b ids.enum, rfl⟩
